import Mathlib

/-!
Shallow embedding of `src/parser/parser_base.cpp` (liborcus low-level scanning
primitive, class `orcus::parser_base`).

The borrowed byte buffer is a `List Nat` of byte values (each `< 256`); the
three pointers `mp_begin`, `mp_char`, `mp_end` become the indices `0`, `pos`,
`buf.length`.  Every operation takes the buffer and the current cursor index
and returns the new cursor index (together with its result value, when the
C++ function returns one).

The vectorized fast paths (`__SSE4_2__` / `__AVX2__` builds) are embedded at
the byte level from the Intel SDM semantics of the intrinsics the source
uses (`_mm_cmpestri`, `_mm_cmpestrm`, `_mm256_cmpgt_epi8`,
`_mm256_movemask_epi8`, `_tzcnt_u32`), including the saturation of the two
explicit length operands of `pcmpestri`/`pcmpestrm` at 16 bytes.
-/

namespace Orcus

/-- Byte at index `i` of the buffer; reads past `mp_end` (which the clamped
loops never let influence a result) yield the default byte `0`. -/
def byteAt (buf : List Nat) (i : Nat) : Nat := buf.getD i 0

/-- Modelled from the spec: `available_size()` is `end - current`
(`parser_base.hpp`, which declares the inline accessors, is not among the
sources). -/
def available_size (buf : List Nat) (pos : Nat) : Nat := buf.length - pos

/-- Modelled from the spec: `is_in(c, chars)` (declared in `parser_global.hpp`,
not among the sources) is membership of the byte in the skip-set. -/
def is_in (c : Nat) (set : List Nat) : Bool := set.contains c

/-- Lines 83-88: the constructor sets `mp_char = p = mp_begin`, so the cursor
starts at index 0. -/
def parser_base_init : Nat := 0

/-- Lines 251-254: `offset()` is `std::distance(mp_begin, mp_char)`, a signed
byte offset. -/
def offset (pos : Nat) : Int := (pos : Int)

/-- Lines 245-249: `remaining_size()` returns `available_size() - 1` when
nonzero, else `0`. -/
def remaining_size (buf : List Nat) (pos : Nat) : Nat :=
  let n := available_size buf pos
  if n ≠ 0 then n - 1 else 0

/-! ### The scalar scanning loop shared by `skip` and `skip_space_and_control`

Both scalar fallbacks are the same loop with different byte predicates:
advance while there is a character and the current byte satisfies the
predicate.  The loop walks the suffix `buf.drop pos` (whose head is
`*mp_char`) carrying the cursor index. -/

def scanLoop (p : Nat → Bool) : List Nat → Nat → Nat
  | [], pos => pos
  | c :: rest, pos => if p c then scanLoop p rest (pos + 1) else pos

/-- Positional form of the scalar scanning loop. -/
def scanPos (p : Nat → Bool) (buf : List Nat) (pos : Nat) : Nat :=
  scanLoop p (buf.drop pos) pos

/-- Lines 130-136: scalar fallback of `skip` —
`for (; has_char(); next()) if (!is_in(*mp_char, chars)) break;`. -/
def skip_scalar (set buf : List Nat) (pos : Nat) : Nat :=
  scanPos (fun c => is_in c set) buf pos

/-- Lines 199-201: scalar fallback of `skip_space_and_control` —
`for (; mp_char != mp_end && ((unsigned char)*mp_char) <= (unsigned char)' '; ++mp_char);`. -/
def skip_ws_scalar (buf : List Nat) (pos : Nat) : Nat :=
  scanPos (fun c => decide (c ≤ 32)) buf pos

/-! ### SSE4.2 / AVX2 primitives -/

/-- First index `i` in `[start, start+k)` with `p i = true`, else `start + k`.
Used to model `_SIDD_LEAST_SIGNIFICANT` index extraction and `_tzcnt_u32`
applied to a movemask. -/
def scanIdx (p : Nat → Bool) : Nat → Nat → Nat
  | 0, i => i
  | k + 1, i => if p i then i else scanIdx p k (i + 1)

/-- `_mm_cmpestri` with `_SIDD_CMP_EQUAL_ANY | _SIDD_UBYTE_OPS |
_SIDD_NEGATIVE_POLARITY | _SIDD_LEAST_SIGNIFICANT` (lines 103-115): the index
of the first of the 16 positions `i` whose flipped aggregate bit is set, i.e.
with ¬(`i` valid in the window (`i < lb`) ∧ byte `b i` equal to some valid
needle byte); 16 when none.  The needle register holds the first 16 bytes of
the skip-set and its length operand saturates at 16, so the valid needle
bytes are `a.take 16`. -/
def cmpestri_any_neg (a : List Nat) (b : Nat → Nat) (lb : Nat) : Nat :=
  scanIdx (fun i => !(decide (i < lb) && (a.take 16).contains (b i))) 16 0

/-- `_mm_cmpestri` with `_SIDD_CMP_RANGES | _SIDD_UBYTE_OPS |
_SIDD_NEGATIVE_POLARITY | _SIDD_LEAST_SIGNIFICANT` and needle `"\0 "` of
length 2 (lines 172-184): the single valid range pair is `(0x00, 0x20)`, so
the flipped aggregate bit at `i` is ¬(`i < lb` ∧ `b i ≤ 0x20`). -/
def cmpestri_ranges_ws (b : Nat → Nat) (lb : Nat) : Nat :=
  scanIdx (fun i => !(decide (i < lb) && decide (b i ≤ 32))) 16 0

/-- Signed value of a byte, as `_mm256_cmpgt_epi8` interprets it. -/
def toSigned (b : Nat) : Int := if b < 128 then (b : Int) else (b : Int) - 256

/-- One lane of `_mm256_cmpgt_epi8(x, y)`: all-ones byte when signed `x > y`. -/
def cmpgt_epi8 (x y : Nat) : Nat := if toSigned y < toSigned x then 255 else 0

/-- Lines 151-153, one lane: `results = cmpgt_epi8(block, ws) | (block & sb)`
with `ws = 0x20` and `sb = 0x80`. -/
def avx_ws_result (b : Nat) : Nat := Nat.lor (cmpgt_epi8 b 32) (Nat.land b 128)

/-- Top bit of a byte: the lane's contribution to `_mm256_movemask_epi8`. -/
def msb8 (x : Nat) : Bool := x.testBit 7

/-! ### Vectorized loops

Each loop is embedded with an explicit iteration budget `fuel`, initialised to
`n_total = available_size()`.  The budget never runs out: an iteration either
leaves the loop or decreases `n_total` by a full window (16 or 32) while the
budget only decreases by 1. -/

/-- Lines 102-129: SSE4.2 fast path of `skip`. -/
def sseSkipLoop (set buf : List Nat) : Nat → Nat → Nat → Nat
  | 0, pos, _ => pos
  | fuel + 1, pos, n_total =>
    if n_total = 0 then pos
    else
      let n := min 16 n_total
      let r := cmpestri_any_neg set (fun i => byteAt buf (pos + i)) n
      if r = 0 then pos
      else if r < 16 then pos + r
      else sseSkipLoop set buf fuel (pos + r) (n_total - 16)

def skip_sse (set buf : List Nat) (pos : Nat) : Nat :=
  sseSkipLoop set buf (available_size buf pos) pos (available_size buf pos)

/-- Lines 141-169: AVX2 fast path of `skip_space_and_control`.
`r` is `_tzcnt_u32` of the movemask (32 when the mask is zero), clamped to
`n_total`. -/
def avxWsLoop (buf : List Nat) : Nat → Nat → Nat → Nat
  | 0, pos, _ => pos
  | fuel + 1, pos, n_total =>
    if n_total = 0 then pos
    else
      let r0 := scanIdx (fun i => msb8 (avx_ws_result (byteAt buf (pos + i)))) 32 0
      let r := min r0 n_total
      if r = 0 then pos
      else if r < 32 then pos + r
      else avxWsLoop buf fuel (pos + r) (n_total - 32)

def skip_ws_avx (buf : List Nat) (pos : Nat) : Nat :=
  avxWsLoop buf (available_size buf pos) pos (available_size buf pos)

/-- Lines 172-198: SSE4.2 fast path of `skip_space_and_control`. -/
def sseWsLoop (buf : List Nat) : Nat → Nat → Nat → Nat
  | 0, pos, _ => pos
  | fuel + 1, pos, n_total =>
    if n_total = 0 then pos
    else
      let n := min 16 n_total
      let r := cmpestri_ranges_ws (fun i => byteAt buf (pos + i)) n
      if r = 0 then pos
      else if r < 16 then pos + r
      else sseWsLoop buf fuel (pos + r) (n_total - 16)

def skip_ws_sse (buf : List Nat) (pos : Nat) : Nat :=
  sseWsLoop buf (available_size buf pos) pos (available_size buf pos)

/-! ### Token matcher -/

/-- Lines 223-229: scalar fallback loop of `parse_expected` — each byte of
`expected` is compared against `cur_char()` and the cursor advanced via
`next()` before the next comparison; on the first mismatch it returns `false`
with the cursor wherever it currently is. -/
def matchLoop : List Nat → List Nat → Nat → Bool × Nat
  | [], _, pos => (true, pos)
  | _ :: _, [], pos => (false, pos)
  | e :: es, c :: cs, pos =>
    if c ≠ e then (false, pos) else matchLoop es cs (pos + 1)

/-- Lines 205-208 and 222-230: `parse_expected`, scalar build — the length
guard followed by the byte-by-byte loop. -/
def parse_expected_scalar (expected buf : List Nat) (pos : Nat) : Bool × Nat :=
  if expected.length > available_size buf pos then (false, pos)
  else matchLoop expected (buf.drop pos) pos

/-- One bit of the `_mm_cmpestrm` result with `_SIDD_CMP_EQUAL_ORDERED |
_SIDD_UBYTE_OPS | _SIDD_BIT_MASK` (positive polarity).  Per the SDM, the
equal-ordered aggregation at window position `i` ANDs `BoolRes[i+j][j]` only
for `i + j ≤ 15`: needle bytes that run past the 16-byte window are
truncated out of the AND (not consulted), while within the window an invalid
needle byte (`j ≥ min la 16`) forces true and a valid needle byte against an
invalid window byte (`i + j ≥ min lb 16`) forces false.  So bit `i` is set
iff every valid needle byte `a j` with `i + j < 16` meets a valid window
byte (`i + j < min lb 16`) equal to it. -/
def ordered_bit (a : List Nat) (b : Nat → Nat) (la lb i : Nat) : Bool :=
  decide (∀ j, j < min la 16 → i + j < 16 →
    i + j < min lb 16 ∧ b (i + j) = a.getD j 0)

/-- The 16-bit mask moved out with `_mm_cvtsi128_si32`, as a natural number. -/
def bitsToMask : List Bool → Nat
  | [] => 0
  | b :: rest => (if b then 1 else 0) + 2 * bitsToMask rest

def cmpestrm_ordered_mask (a : List Nat) (b : Nat → Nat) (la lb : Nat) : Nat :=
  bitsToMask ((List.range 16).map (fun i => ordered_bit a b la lb i))

/-- Lines 205-221: `parse_expected`, SSE4.2 build — the length guard, the
ordered-equality mask with both length operands `n_expected`, then
`if (mask) mp_char += n_expected; return mask;`. -/
def parse_expected_sse (expected buf : List Nat) (pos : Nat) : Bool × Nat :=
  if expected.length > available_size buf pos then (false, pos)
  else
    let mask := cmpestrm_ordered_mask expected (fun i => byteAt buf (pos + i))
      expected.length expected.length
    if mask ≠ 0 then (true, pos + expected.length) else (false, pos)

/-! ### Numeric parse adapter -/

/-- Lines 233-243: `parse_double`.  The injected strategy receives the
remaining buffer and its length and reports the parsed value together with
the number of bytes it consumed (the source communicates consumption by
advancing the pointer `p`; `p == mp_char` afterwards means zero bytes).  The
value type is abstract with a distinguished quiet-NaN sentinel `nan`. -/
def parse_double {α : Type} (strat : List Nat → Nat → α × Nat) (nan : α)
    (buf : List Nat) (pos : Nat) : α × Nat :=
  let m := available_size buf pos
  let res := strat (buf.drop pos) m
  if res.2 = 0 then (nan, pos) else (res.1, pos + res.2)

end Orcus

/-! ## Basic properties of the scalar scanning loop -/

namespace Orcus

theorem scanPos_eq (p : Nat → Bool) (buf : List Nat) (pos : Nat) :
    scanPos p buf pos =
      if _h : pos < buf.length then
        (if p (byteAt buf pos) then scanPos p buf (pos + 1) else pos)
      else pos := by
  by_cases h : pos < buf.length
  · rw [dif_pos h]
    have hb : byteAt buf pos = buf[pos] := List.getD_eq_getElem buf 0 h
    unfold scanPos
    rw [List.drop_eq_getElem_cons h, hb]
    rfl
  · rw [dif_neg h]
    unfold scanPos
    rw [List.drop_of_length_le (Nat.le_of_not_lt h)]
    rfl

theorem scanPos_end {p : Nat → Bool} {buf : List Nat} {pos : Nat}
    (h : buf.length ≤ pos) : scanPos p buf pos = pos := by
  rw [scanPos_eq, dif_neg (by omega)]

theorem scanPos_stop {p : Nat → Bool} {buf : List Nat} {pos : Nat}
    (h : pos < buf.length) (hc : p (byteAt buf pos) = false) :
    scanPos p buf pos = pos := by
  rw [scanPos_eq, dif_pos h, hc]
  rfl

theorem scanPos_step {p : Nat → Bool} {buf : List Nat} {pos : Nat}
    (h : pos < buf.length) (hc : p (byteAt buf pos) = true) :
    scanPos p buf pos = scanPos p buf (pos + 1) := by
  rw [scanPos_eq, dif_pos h, hc]
  rfl

theorem scanPos_ge (p : Nat → Bool) (buf : List Nat) (pos : Nat) :
    pos ≤ scanPos p buf pos := by
  rw [scanPos_eq]
  by_cases h : pos < buf.length
  · rw [dif_pos h]
    by_cases hc : p (byteAt buf pos)
    · rw [if_pos hc]
      have := scanPos_ge p buf (pos + 1)
      omega
    · rw [if_neg hc]
  · rw [dif_neg h]
termination_by buf.length - pos
decreasing_by omega

theorem scanPos_le_length (p : Nat → Bool) (buf : List Nat) (pos : Nat)
    (hpos : pos ≤ buf.length) : scanPos p buf pos ≤ buf.length := by
  rw [scanPos_eq]
  by_cases h : pos < buf.length
  · rw [dif_pos h]
    by_cases hc : p (byteAt buf pos)
    · rw [if_pos hc]
      exact scanPos_le_length p buf (pos + 1) (by omega)
    · rw [if_neg hc]; omega
  · rw [dif_neg h]; omega
termination_by buf.length - pos
decreasing_by omega

theorem scanPos_consumed (p : Nat → Bool) (buf : List Nat) (pos q : Nat)
    (hq1 : pos ≤ q) (hq2 : q < scanPos p buf pos) :
    q < buf.length ∧ p (byteAt buf q) = true := by
  rw [scanPos_eq] at hq2
  by_cases h : pos < buf.length
  · rw [dif_pos h] at hq2
    by_cases hc : p (byteAt buf pos)
    · rw [if_pos hc] at hq2
      rcases Nat.eq_or_lt_of_le hq1 with he | hl
      · exact he ▸ ⟨h, hc⟩
      · exact scanPos_consumed p buf (pos + 1) q hl hq2
    · rw [if_neg hc] at hq2; omega
  · rw [dif_neg h] at hq2; omega
termination_by buf.length - pos
decreasing_by omega

theorem scanPos_at_result (p : Nat → Bool) (buf : List Nat) (pos : Nat)
    (h : scanPos p buf pos < buf.length) :
    p (byteAt buf (scanPos p buf pos)) = false := by
  by_cases hlt : pos < buf.length
  · by_cases hc : p (byteAt buf pos)
    · rw [scanPos_step hlt hc] at h ⊢
      exact scanPos_at_result p buf (pos + 1) h
    · rw [scanPos_stop hlt (Bool.not_eq_true _ ▸ hc)]
      exact Bool.not_eq_true _ ▸ hc
  · rw [scanPos_end (by omega)] at h
    omega
termination_by buf.length - pos
decreasing_by omega

theorem scanPos_advance (p : Nat → Bool) (buf : List Nat) (pos : Nat) (k : Nat)
    (hk : ∀ j, j < k → pos + j < buf.length ∧ p (byteAt buf (pos + j)) = true) :
    scanPos p buf pos = scanPos p buf (pos + k) := by
  induction k generalizing pos with
  | zero => rfl
  | succ k ih =>
    obtain ⟨h0, hc0⟩ := hk 0 (by omega)
    rw [Nat.add_zero] at h0 hc0
    rw [scanPos_step h0 hc0, ih (pos + 1) (fun j hj => by
      have := hk (j + 1) (by omega)
      constructor
      · omega
      · have harr : pos + (j + 1) = pos + 1 + j := by omega
        rw [harr] at this
        exact this.2)]
    have : pos + 1 + k = pos + (k + 1) := by omega
    rw [this]

theorem scanPos_idem (p : Nat → Bool) (buf : List Nat) (pos : Nat) :
    scanPos p buf (scanPos p buf pos) = scanPos p buf pos := by
  by_cases h : scanPos p buf pos < buf.length
  · exact scanPos_stop h (scanPos_at_result p buf pos h)
  · exact scanPos_end (by omega)

/-! ## Properties of the window-index search (`scanIdx`) -/

theorem scanIdx_ge (p : Nat → Bool) (k i : Nat) : i ≤ scanIdx p k i := by
  induction k generalizing i with
  | zero => exact Nat.le_refl _
  | succ k ih =>
    unfold scanIdx
    by_cases h : p i
    · rw [if_pos h]
    · rw [if_neg h]
      have := ih (i + 1)
      omega

theorem scanIdx_le (p : Nat → Bool) (k i : Nat) : scanIdx p k i ≤ i + k := by
  induction k generalizing i with
  | zero => exact Nat.le_refl _
  | succ k ih =>
    unfold scanIdx
    by_cases h : p i
    · rw [if_pos h]; omega
    · rw [if_neg h]
      have := ih (i + 1)
      omega

theorem scanIdx_not_hit (p : Nat → Bool) (k i : Nat) :
    ∀ j, i ≤ j → j < scanIdx p k i → p j = false := by
  induction k generalizing i with
  | zero =>
    intro j h1 h2
    unfold scanIdx at h2
    omega
  | succ k ih =>
    intro j h1 h2
    unfold scanIdx at h2
    by_cases h : p i
    · rw [if_pos h] at h2; omega
    · rw [if_neg h] at h2
      rcases Nat.eq_or_lt_of_le h1 with he | hl
      · rw [← he]
        exact Bool.not_eq_true _ ▸ h
      · exact ih (i + 1) j hl h2

theorem scanIdx_hit (p : Nat → Bool) (k i : Nat)
    (h : scanIdx p k i < i + k) : p (scanIdx p k i) = true := by
  induction k generalizing i with
  | zero => unfold scanIdx at h; omega
  | succ k ih =>
    unfold scanIdx at h ⊢
    by_cases hp : p i
    · rw [if_pos hp]
      exact hp
    · rw [if_neg hp] at h ⊢
      exact ih (i + 1) (by omega)

end Orcus

/-! ## Window facts for the `pcmpestri`-style searches

Both SSE window searches have the shape
`scanIdx (fun i => !(decide (i < lb) && q i)) 16 0`:
the first window index that is either out of the valid window (`i ≥ lb`,
where non-masked negative polarity turns the zero aggregate bit into one) or
whose byte fails the match predicate `q`. -/

namespace Orcus

theorem windowIdx_le (q : Nat → Bool) (lb : Nat) :
    scanIdx (fun i => !(decide (i < lb) && q i)) 16 0 ≤ lb := by
  by_contra hc
  push_neg at hc
  have := scanIdx_not_hit (fun i => !(decide (i < lb) && q i)) 16 0 lb
    (Nat.zero_le _) hc
  simp at this

theorem windowIdx_mem (q : Nat → Bool) (lb : Nat) :
    ∀ j, j < scanIdx (fun i => !(decide (i < lb) && q i)) 16 0 →
      j < lb ∧ q j = true := by
  intro j hj
  have := scanIdx_not_hit (fun i => !(decide (i < lb) && q i)) 16 0 j
    (Nat.zero_le _) hj
  simpa using this

theorem windowIdx_hit (q : Nat → Bool) (lb : Nat)
    (h : scanIdx (fun i => !(decide (i < lb) && q i)) 16 0 < lb) (hlb : lb ≤ 16) :
    q (scanIdx (fun i => !(decide (i < lb) && q i)) 16 0) = false := by
  have hh := scanIdx_hit (fun i => !(decide (i < lb) && q i)) 16 0 (by omega)
  set r := scanIdx (fun i => !(decide (i < lb) && q i)) 16 0 with hrdef
  cases hq : q r
  · rfl
  · rw [Bool.not_eq_true'] at hh
    simp [hq, h] at hh

end Orcus

/-! ## Facts about the two SSE window searches -/

namespace Orcus

theorem cmpestri_any_neg_le (a : List Nat) (b : Nat → Nat) (lb : Nat) :
    cmpestri_any_neg a b lb ≤ lb :=
  windowIdx_le _ lb

theorem cmpestri_any_neg_mem (a : List Nat) (b : Nat → Nat) (lb : Nat) :
    ∀ j, j < cmpestri_any_neg a b lb →
      j < lb ∧ (a.take 16).contains (b j) = true :=
  windowIdx_mem _ lb

theorem cmpestri_any_neg_hit (a : List Nat) (b : Nat → Nat) (lb : Nat)
    (h : cmpestri_any_neg a b lb < lb) (hlb : lb ≤ 16) :
    (a.take 16).contains (b (cmpestri_any_neg a b lb)) = false :=
  windowIdx_hit _ lb h hlb

theorem cmpestri_ranges_ws_le (b : Nat → Nat) (lb : Nat) :
    cmpestri_ranges_ws b lb ≤ lb :=
  windowIdx_le _ lb

theorem cmpestri_ranges_ws_mem (b : Nat → Nat) (lb : Nat) :
    ∀ j, j < cmpestri_ranges_ws b lb → j < lb ∧ decide (b j ≤ 32) = true :=
  windowIdx_mem _ lb

theorem cmpestri_ranges_ws_hit (b : Nat → Nat) (lb : Nat)
    (h : cmpestri_ranges_ws b lb < lb) (hlb : lb ≤ 16) :
    decide (b (cmpestri_ranges_ws b lb) ≤ 32) = false :=
  windowIdx_hit _ lb h hlb

set_option maxRecDepth 4096 in
/-- The movemask bit of a byte lane equals the plain unsigned comparison
`32 < b`: the signed greater-than is corrected by OR-ing in the sign bit. -/
theorem avx_bit_eq : ∀ b, b < 256 → msb8 (avx_ws_result b) = decide (32 < b) := by
  decide

/-! ## One-step unfolding equations of the vectorized loops -/

theorem sseSkipLoop_succ (set buf : List Nat) (fuel pos n_total : Nat) :
    sseSkipLoop set buf (fuel + 1) pos n_total =
      if n_total = 0 then pos
      else
        if cmpestri_any_neg set (fun i => byteAt buf (pos + i)) (min 16 n_total) = 0
          then pos
        else if cmpestri_any_neg set (fun i => byteAt buf (pos + i)) (min 16 n_total) < 16
          then pos + cmpestri_any_neg set (fun i => byteAt buf (pos + i)) (min 16 n_total)
        else sseSkipLoop set buf fuel
          (pos + cmpestri_any_neg set (fun i => byteAt buf (pos + i)) (min 16 n_total))
          (n_total - 16) := rfl

theorem sseWsLoop_succ (buf : List Nat) (fuel pos n_total : Nat) :
    sseWsLoop buf (fuel + 1) pos n_total =
      if n_total = 0 then pos
      else
        if cmpestri_ranges_ws (fun i => byteAt buf (pos + i)) (min 16 n_total) = 0
          then pos
        else if cmpestri_ranges_ws (fun i => byteAt buf (pos + i)) (min 16 n_total) < 16
          then pos + cmpestri_ranges_ws (fun i => byteAt buf (pos + i)) (min 16 n_total)
        else sseWsLoop buf fuel
          (pos + cmpestri_ranges_ws (fun i => byteAt buf (pos + i)) (min 16 n_total))
          (n_total - 16) := rfl

theorem avxWsLoop_succ (buf : List Nat) (fuel pos n_total : Nat) :
    avxWsLoop buf (fuel + 1) pos n_total =
      if n_total = 0 then pos
      else
        if min (scanIdx (fun i => msb8 (avx_ws_result (byteAt buf (pos + i)))) 32 0) n_total = 0
          then pos
        else if min (scanIdx (fun i => msb8 (avx_ws_result (byteAt buf (pos + i)))) 32 0) n_total < 32
          then pos + min (scanIdx (fun i => msb8 (avx_ws_result (byteAt buf (pos + i)))) 32 0) n_total
        else avxWsLoop buf fuel
          (pos + min (scanIdx (fun i => msb8 (avx_ws_result (byteAt buf (pos + i)))) 32 0) n_total)
          (n_total - 32) := rfl

/-! ## Equivalence of the vectorized and scalar paths -/

/-- SSE4.2 `skip` loop agrees with the scalar fallback whenever the skip-set
fits the 16-byte needle register. -/
theorem sseSkipLoop_eq_scalar (set buf : List Nat) (hset : set.length ≤ 16) :
    ∀ fuel pos n_total, n_total = buf.length - pos → n_total ≤ fuel →
      sseSkipLoop set buf fuel pos n_total = skip_scalar set buf pos := by
  intro fuel
  induction fuel with
  | zero =>
    intro pos n_total h1 h2
    show pos = skip_scalar set buf pos
    exact (scanPos_end (by omega)).symm
  | succ fuel ih =>
    intro pos n_total h1 h2
    rw [sseSkipLoop_succ]
    by_cases h0 : n_total = 0
    · rw [if_pos h0]
      exact (scanPos_end (by omega)).symm
    · rw [if_neg h0]
      have hpos : pos < buf.length := by omega
      have hnle : min 16 n_total ≤ 16 := by omega
      have hrle : cmpestri_any_neg set (fun i => byteAt buf (pos + i)) (min 16 n_total)
          ≤ min 16 n_total := cmpestri_any_neg_le _ _ _
      have hmem : ∀ j, j < cmpestri_any_neg set (fun i => byteAt buf (pos + i)) (min 16 n_total) →
          j < min 16 n_total ∧ is_in (byteAt buf (pos + j)) set = true := by
        intro j hj
        have h := cmpestri_any_neg_mem set (fun i => byteAt buf (pos + i)) (min 16 n_total) j hj
        rwa [List.take_of_length_le hset] at h
      have hhit : cmpestri_any_neg set (fun i => byteAt buf (pos + i)) (min 16 n_total)
            < min 16 n_total →
          is_in (byteAt buf
            (pos + cmpestri_any_neg set (fun i => byteAt buf (pos + i)) (min 16 n_total)))
            set = false := by
        intro hlt
        have h := cmpestri_any_neg_hit set (fun i => byteAt buf (pos + i)) (min 16 n_total)
          hlt hnle
        rwa [List.take_of_length_le hset] at h
      generalize hr : cmpestri_any_neg set (fun i => byteAt buf (pos + i)) (min 16 n_total) = r
        at hrle hmem hhit ⊢
      have hadv : skip_scalar set buf pos = skip_scalar set buf (pos + r) := by
        apply scanPos_advance
        intro j hj
        obtain ⟨hjn, hc⟩ := hmem j hj
        exact ⟨by omega, hc⟩
      by_cases hr0 : r = 0
      · rw [if_pos hr0]
        have hs : is_in (byteAt buf pos) set = false := by
          have h := hhit (by omega)
          rwa [hr0, Nat.add_zero] at h
        exact (scanPos_stop hpos hs).symm
      · rw [if_neg hr0]
        by_cases hr16 : r < 16
        · rw [if_pos hr16]
          rw [hadv]
          by_cases hrn : r < min 16 n_total
          · exact (scanPos_stop (by omega) (hhit hrn)).symm
          · exact (scanPos_end (by omega)).symm
        · rw [if_neg hr16]
          rw [hadv]
          exact ih (pos + r) (n_total - 16) (by omega) (by omega)

/-- SSE4.2 `skip_space_and_control` loop agrees with the scalar fallback. -/
theorem sseWsLoop_eq_scalar (buf : List Nat) :
    ∀ fuel pos n_total, n_total = buf.length - pos → n_total ≤ fuel →
      sseWsLoop buf fuel pos n_total = skip_ws_scalar buf pos := by
  intro fuel
  induction fuel with
  | zero =>
    intro pos n_total h1 h2
    show pos = skip_ws_scalar buf pos
    exact (scanPos_end (by omega)).symm
  | succ fuel ih =>
    intro pos n_total h1 h2
    rw [sseWsLoop_succ]
    by_cases h0 : n_total = 0
    · rw [if_pos h0]
      exact (scanPos_end (by omega)).symm
    · rw [if_neg h0]
      have hpos : pos < buf.length := by omega
      have hnle : min 16 n_total ≤ 16 := by omega
      have hrle : cmpestri_ranges_ws (fun i => byteAt buf (pos + i)) (min 16 n_total)
          ≤ min 16 n_total := cmpestri_ranges_ws_le _ _
      have hmem : ∀ j, j < cmpestri_ranges_ws (fun i => byteAt buf (pos + i)) (min 16 n_total) →
          j < min 16 n_total ∧ decide (byteAt buf (pos + j) ≤ 32) = true :=
        cmpestri_ranges_ws_mem _ _
      have hhit : cmpestri_ranges_ws (fun i => byteAt buf (pos + i)) (min 16 n_total)
            < min 16 n_total →
          decide (byteAt buf
            (pos + cmpestri_ranges_ws (fun i => byteAt buf (pos + i)) (min 16 n_total)) ≤ 32)
            = false := by
        intro hlt
        exact cmpestri_ranges_ws_hit (fun i => byteAt buf (pos + i)) (min 16 n_total) hlt hnle
      generalize hr : cmpestri_ranges_ws (fun i => byteAt buf (pos + i)) (min 16 n_total) = r
        at hrle hmem hhit ⊢
      have hadv : skip_ws_scalar buf pos = skip_ws_scalar buf (pos + r) := by
        apply scanPos_advance
        intro j hj
        obtain ⟨hjn, hc⟩ := hmem j hj
        exact ⟨by omega, hc⟩
      by_cases hr0 : r = 0
      · rw [if_pos hr0]
        have hs : decide (byteAt buf pos ≤ 32) = false := by
          have h := hhit (by omega)
          rwa [hr0, Nat.add_zero] at h
        exact (scanPos_stop hpos hs).symm
      · rw [if_neg hr0]
        by_cases hr16 : r < 16
        · rw [if_pos hr16]
          rw [hadv]
          by_cases hrn : r < min 16 n_total
          · exact (scanPos_stop (by omega) (hhit hrn)).symm
          · exact (scanPos_end (by omega)).symm
        · rw [if_neg hr16]
          rw [hadv]
          exact ih (pos + r) (n_total - 16) (by omega) (by omega)

end Orcus

namespace Orcus

theorem byteAt_lt (buf : List Nat) (hbuf : ∀ b ∈ buf, b < 256) (q : Nat)
    (h : q < buf.length) : byteAt buf q < 256 := by
  have he : byteAt buf q = buf[q] := List.getD_eq_getElem buf 0 h
  rw [he]
  exact hbuf _ (List.getElem_mem h)

/-- AVX2 `skip_space_and_control` loop agrees with the scalar fallback on
byte buffers. -/
theorem avxWsLoop_eq_scalar (buf : List Nat) (hbuf : ∀ b ∈ buf, b < 256) :
    ∀ fuel pos n_total, n_total = buf.length - pos → n_total ≤ fuel →
      avxWsLoop buf fuel pos n_total = skip_ws_scalar buf pos := by
  intro fuel
  induction fuel with
  | zero =>
    intro pos n_total h1 h2
    show pos = skip_ws_scalar buf pos
    exact (scanPos_end (by omega)).symm
  | succ fuel ih =>
    intro pos n_total h1 h2
    rw [avxWsLoop_succ]
    by_cases h0 : n_total = 0
    · rw [if_pos h0]
      exact (scanPos_end (by omega)).symm
    · rw [if_neg h0]
      have hpos : pos < buf.length := by omega
      have hr0le : scanIdx (fun i => msb8 (avx_ws_result (byteAt buf (pos + i)))) 32 0 ≤ 32 := by
        have := scanIdx_le (fun i => msb8 (avx_ws_result (byteAt buf (pos + i)))) 32 0
        omega
      have hmem : ∀ j,
          j < scanIdx (fun i => msb8 (avx_ws_result (byteAt buf (pos + i)))) 32 0 →
          pos + j < buf.length → decide (byteAt buf (pos + j) ≤ 32) = true := by
        intro j hj hjl
        have hb0 := scanIdx_not_hit (fun i => msb8 (avx_ws_result (byteAt buf (pos + i))))
          32 0 j (Nat.zero_le _) hj
        have hb : msb8 (avx_ws_result (byteAt buf (pos + j))) = false := hb0
        rw [avx_bit_eq _ (byteAt_lt buf hbuf _ hjl)] at hb
        have hb' : ¬ 32 < byteAt buf (pos + j) := of_decide_eq_false hb
        simp only [decide_eq_true_eq]
        omega
      have hhit : scanIdx (fun i => msb8 (avx_ws_result (byteAt buf (pos + i)))) 32 0 < 32 →
          pos + scanIdx (fun i => msb8 (avx_ws_result (byteAt buf (pos + i)))) 32 0
            < buf.length →
          decide (byteAt buf
            (pos + scanIdx (fun i => msb8 (avx_ws_result (byteAt buf (pos + i)))) 32 0)
            ≤ 32) = false := by
        intro hlt hl
        have hb0 := scanIdx_hit (fun i => msb8 (avx_ws_result (byteAt buf (pos + i)))) 32 0
          (by omega)
        have hb : msb8 (avx_ws_result (byteAt buf
            (pos + scanIdx (fun i => msb8 (avx_ws_result (byteAt buf (pos + i)))) 32 0)))
            = true := hb0
        rw [avx_bit_eq _ (byteAt_lt buf hbuf _ hl)] at hb
        have hb' : 32 < byteAt buf
            (pos + scanIdx (fun i => msb8 (avx_ws_result (byteAt buf (pos + i)))) 32 0) :=
          of_decide_eq_true hb
        simp only [decide_eq_false_iff_not]
        omega
      generalize hr : scanIdx (fun i => msb8 (avx_ws_result (byteAt buf (pos + i)))) 32 0 = r0
        at hr0le hmem hhit ⊢
      have hadv : ∀ k, k ≤ min r0 n_total →
          skip_ws_scalar buf pos = skip_ws_scalar buf (pos + k) := by
        intro k hk
        apply scanPos_advance
        intro j hj
        have hjl : pos + j < buf.length := by omega
        exact ⟨hjl, hmem j (by omega) hjl⟩
      by_cases hrz : min r0 n_total = 0
      · rw [if_pos hrz]
        have hr00 : r0 = 0 := by omega
        have hs := hhit (by omega) (by omega)
        rw [hr00, Nat.add_zero] at hs
        exact (scanPos_stop hpos hs).symm
      · rw [if_neg hrz]
        by_cases hlt32 : min r0 n_total < 32
        · rw [if_pos hlt32]
          rw [hadv (min r0 n_total) (Nat.le_refl _)]
          by_cases hc : min r0 n_total < n_total
          · have hrr : min r0 n_total = r0 := by omega
            have hs := hhit (by omega) (by omega)
            rw [hrr]
            exact (scanPos_stop (by omega) hs).symm
          · exact (scanPos_end (by omega)).symm
        · rw [if_neg hlt32]
          rw [hadv (min r0 n_total) (Nat.le_refl _)]
          exact ih (pos + min r0 n_total) (n_total - 32) (by omega) (by omega)

end Orcus

/-! ## Top-level path agreement and cursor bounds -/

namespace Orcus

theorem skip_sse_eq_scalar (set buf : List Nat) (pos : Nat) (hset : set.length ≤ 16) :
    skip_sse set buf pos = skip_scalar set buf pos :=
  sseSkipLoop_eq_scalar set buf hset _ pos _ rfl (Nat.le_refl _)

theorem skip_ws_sse_eq_scalar (buf : List Nat) (pos : Nat) :
    skip_ws_sse buf pos = skip_ws_scalar buf pos :=
  sseWsLoop_eq_scalar buf _ pos _ rfl (Nat.le_refl _)

theorem skip_ws_avx_eq_scalar (buf : List Nat) (pos : Nat)
    (hbuf : ∀ b ∈ buf, b < 256) :
    skip_ws_avx buf pos = skip_ws_scalar buf pos :=
  avxWsLoop_eq_scalar buf hbuf _ pos _ rfl (Nat.le_refl _)

theorem sseSkipLoop_bounds (set buf : List Nat) :
    ∀ fuel pos n_total, pos ≤ buf.length → n_total ≤ buf.length - pos →
      pos ≤ sseSkipLoop set buf fuel pos n_total ∧
        sseSkipLoop set buf fuel pos n_total ≤ buf.length := by
  intro fuel
  induction fuel with
  | zero =>
    intro pos n_total hpos hn
    exact ⟨Nat.le_refl _, hpos⟩
  | succ fuel ih =>
    intro pos n_total hpos hn
    rw [sseSkipLoop_succ]
    by_cases h0 : n_total = 0
    · rw [if_pos h0]
      exact ⟨Nat.le_refl _, hpos⟩
    · rw [if_neg h0]
      have hrle : cmpestri_any_neg set (fun i => byteAt buf (pos + i)) (min 16 n_total)
          ≤ min 16 n_total := cmpestri_any_neg_le _ _ _
      generalize cmpestri_any_neg set (fun i => byteAt buf (pos + i)) (min 16 n_total) = r
        at hrle ⊢
      by_cases hr0 : r = 0
      · rw [if_pos hr0]
        exact ⟨Nat.le_refl _, hpos⟩
      · rw [if_neg hr0]
        by_cases hr16 : r < 16
        · rw [if_pos hr16]
          exact ⟨by omega, by omega⟩
        · rw [if_neg hr16]
          have := ih (pos + r) (n_total - 16) (by omega) (by omega)
          exact ⟨by omega, this.2⟩

theorem sseWsLoop_bounds (buf : List Nat) :
    ∀ fuel pos n_total, pos ≤ buf.length → n_total ≤ buf.length - pos →
      pos ≤ sseWsLoop buf fuel pos n_total ∧
        sseWsLoop buf fuel pos n_total ≤ buf.length := by
  intro fuel
  induction fuel with
  | zero =>
    intro pos n_total hpos hn
    exact ⟨Nat.le_refl _, hpos⟩
  | succ fuel ih =>
    intro pos n_total hpos hn
    rw [sseWsLoop_succ]
    by_cases h0 : n_total = 0
    · rw [if_pos h0]
      exact ⟨Nat.le_refl _, hpos⟩
    · rw [if_neg h0]
      have hrle : cmpestri_ranges_ws (fun i => byteAt buf (pos + i)) (min 16 n_total)
          ≤ min 16 n_total := cmpestri_ranges_ws_le _ _
      generalize cmpestri_ranges_ws (fun i => byteAt buf (pos + i)) (min 16 n_total) = r
        at hrle ⊢
      by_cases hr0 : r = 0
      · rw [if_pos hr0]
        exact ⟨Nat.le_refl _, hpos⟩
      · rw [if_neg hr0]
        by_cases hr16 : r < 16
        · rw [if_pos hr16]
          exact ⟨by omega, by omega⟩
        · rw [if_neg hr16]
          have := ih (pos + r) (n_total - 16) (by omega) (by omega)
          exact ⟨by omega, this.2⟩

theorem avxWsLoop_bounds (buf : List Nat) :
    ∀ fuel pos n_total, pos ≤ buf.length → n_total ≤ buf.length - pos →
      pos ≤ avxWsLoop buf fuel pos n_total ∧
        avxWsLoop buf fuel pos n_total ≤ buf.length := by
  intro fuel
  induction fuel with
  | zero =>
    intro pos n_total hpos hn
    exact ⟨Nat.le_refl _, hpos⟩
  | succ fuel ih =>
    intro pos n_total hpos hn
    rw [avxWsLoop_succ]
    by_cases h0 : n_total = 0
    · rw [if_pos h0]
      exact ⟨Nat.le_refl _, hpos⟩
    · rw [if_neg h0]
      have hr0le : scanIdx (fun i => msb8 (avx_ws_result (byteAt buf (pos + i)))) 32 0 ≤ 32 := by
        have := scanIdx_le (fun i => msb8 (avx_ws_result (byteAt buf (pos + i)))) 32 0
        omega
      generalize scanIdx (fun i => msb8 (avx_ws_result (byteAt buf (pos + i)))) 32 0 = r0
        at hr0le ⊢
      have hrle : min r0 n_total ≤ n_total := Nat.min_le_right _ _
      by_cases hr0 : min r0 n_total = 0
      · rw [if_pos hr0]
        exact ⟨Nat.le_refl _, hpos⟩
      · rw [if_neg hr0]
        by_cases hr32 : min r0 n_total < 32
        · rw [if_pos hr32]
          exact ⟨by omega, by omega⟩
        · rw [if_neg hr32]
          have := ih (pos + min r0 n_total) (n_total - 32) (by omega) (by omega)
          exact ⟨by omega, this.2⟩

end Orcus

/-! ## Token-matcher lemmas -/

namespace Orcus

theorem matchLoop_true (es : List Nat) :
    ∀ cs pos res, matchLoop es cs pos = (true, res) →
      res = pos + es.length ∧ cs.take es.length = es := by
  induction es with
  | nil =>
    intro cs pos res h
    have h2 : res = pos := by
      have := congrArg Prod.snd h
      simpa using this.symm
    subst h2
    exact ⟨by simp, by simp⟩
  | cons e es ih =>
    intro cs pos res h
    cases cs with
    | nil =>
      have := congrArg Prod.fst h
      simp [matchLoop] at this
    | cons c cs =>
      have hm : matchLoop (e :: es) (c :: cs) pos =
          if c ≠ e then (false, pos) else matchLoop es cs (pos + 1) := rfl
      rw [hm] at h
      by_cases hc : c ≠ e
      · rw [if_pos hc] at h
        have := congrArg Prod.fst h
        simp at this
      · rw [if_neg hc] at h
        push_neg at hc
        obtain ⟨h1, h2⟩ := ih cs (pos + 1) res h
        subst hc
        refine ⟨by simp [List.length_cons]; omega, ?_⟩
        rw [List.length_cons, List.take_succ_cons, h2]

theorem matchLoop_bounds (es : List Nat) :
    ∀ cs pos, pos ≤ (matchLoop es cs pos).2 ∧
      (matchLoop es cs pos).2 ≤ pos + cs.length := by
  induction es with
  | nil =>
    intro cs pos
    exact ⟨Nat.le_refl _, by simp [matchLoop]⟩
  | cons e es ih =>
    intro cs pos
    cases cs with
    | nil => exact ⟨Nat.le_refl _, by simp [matchLoop]⟩
    | cons c cs =>
      have hm : matchLoop (e :: es) (c :: cs) pos =
          if c ≠ e then (false, pos) else matchLoop es cs (pos + 1) := rfl
      rw [hm]
      by_cases hc : c ≠ e
      · rw [if_pos hc]
        exact ⟨Nat.le_refl _, by simp⟩
      · rw [if_neg hc]
        have := ih cs (pos + 1)
        exact ⟨by omega, by simp [List.length_cons]; omega⟩

/-! ## `pcmpestrm` ordered-equality mask lemmas -/

theorem bitsToMask_pos (l : List Bool) (h : true ∈ l) : bitsToMask l ≠ 0 := by
  induction l with
  | nil => simp at h
  | cons b rest ih =>
    cases b
    · have hr : true ∈ rest := by simpa using h
      have := ih hr
      show (if false then 1 else 0) + 2 * bitsToMask rest ≠ 0
      simp only [if_neg Bool.false_ne_true]
      omega
    · show (if true then 1 else 0) + 2 * bitsToMask rest ≠ 0
      simp

theorem bitsToMask_mem (l : List Bool) (h : bitsToMask l ≠ 0) : true ∈ l := by
  induction l with
  | nil => simp [bitsToMask] at h
  | cons b rest ih =>
    cases b
    · have h2 : bitsToMask rest ≠ 0 := by
        have hz : bitsToMask (false :: rest) = 2 * bitsToMask rest := by
          show (if false then 1 else 0) + 2 * bitsToMask rest = _
          simp
        rw [hz] at h
        omega
      exact List.mem_cons_of_mem _ (ih h2)
    · simp

theorem cmpestrm_mask_ne_zero_iff (a : List Nat) (b : Nat → Nat) (la lb : Nat) :
    cmpestrm_ordered_mask a b la lb ≠ 0 ↔
      ∃ i, i < 16 ∧ ordered_bit a b la lb i = true := by
  unfold cmpestrm_ordered_mask
  constructor
  · intro h
    have hm := bitsToMask_mem _ h
    rw [List.mem_map] at hm
    obtain ⟨i, hi, hb⟩ := hm
    exact ⟨i, List.mem_range.mp hi, hb⟩
  · rintro ⟨i, hi, hb⟩
    apply bitsToMask_pos
    rw [List.mem_map]
    exact ⟨i, List.mem_range.mpr hi, hb⟩

theorem ordered_bit_zero (a : List Nat) (b : Nat → Nat) (hla : a.length ≤ 16) :
    ordered_bit a b a.length a.length 0 = true ↔
      ∀ j, j < a.length → b j = a.getD j 0 := by
  unfold ordered_bit
  rw [decide_eq_true_eq]
  have hm : min a.length 16 = a.length := by omega
  rw [hm]
  constructor
  · intro h j hj
    have := h j hj (by omega)
    rw [Nat.zero_add] at this
    exact this.2
  · intro h j hj hj16
    rw [Nat.zero_add]
    exact ⟨hj, h j hj⟩

theorem ordered_bit_pos (a : List Nat) (b : Nat → Nat) (i : Nat) (hla1 : 1 ≤ a.length)
    (hla : a.length ≤ 15) (hi : 1 ≤ i) (hi16 : i < 16) :
    ordered_bit a b a.length a.length i = false := by
  unfold ordered_bit
  rw [decide_eq_false_iff_not]
  intro h
  have hm : min a.length 16 = a.length := by omega
  rw [hm] at h
  by_cases hcase : i < a.length
  · have := (h (a.length - i) (by omega) (by omega)).1
    omega
  · have := (h 0 (by omega) (by omega)).1
    omega

/-- The SSE mask is nonzero exactly when all `n` expected bytes match at the
cursor, for `1 ≤ n ≤ 15`: with both length operands equal to `n` strictly
inside the window, every window position `i ≥ 1` still consults a needle
byte that reaches a position at or past `lb` and is forced false, so only
position 0 can set a bit.  (At `n = 16` this breaks down: positions `i ≥ 1`
have their trailing needle bytes truncated at the window edge, so a partial
suffix match also sets a bit.) -/
theorem parse_expected_sse_mask (expected buf : List Nat) (pos : Nat)
    (h1 : 1 ≤ expected.length) (h15 : expected.length ≤ 15) :
    (cmpestrm_ordered_mask expected (fun i => byteAt buf (pos + i))
        expected.length expected.length ≠ 0)
      ↔ ∀ j, j < expected.length → byteAt buf (pos + j) = expected.getD j 0 := by
  rw [cmpestrm_mask_ne_zero_iff]
  constructor
  · rintro ⟨i, hi16, hb⟩
    rcases Nat.eq_zero_or_pos i with hz | hp
    · subst hz
      rw [ordered_bit_zero _ _ (by omega)] at hb
      intro j hj
      exact hb j hj
    · rw [ordered_bit_pos _ _ i h1 h15 hp hi16] at hb
      cases hb
  · intro h
    refine ⟨0, by omega, ?_⟩
    rw [ordered_bit_zero _ _ (by omega)]
    exact h

end Orcus

/-! ## Claim theorems -/

namespace Orcus

/-- Zeta-reduced unfolding of the SSE `parse_expected`. -/
theorem parse_expected_sse_eq (expected buf : List Nat) (pos : Nat) :
    parse_expected_sse expected buf pos =
      if expected.length > available_size buf pos then (false, pos)
      else
        if cmpestrm_ordered_mask expected (fun i => byteAt buf (pos + i))
            expected.length expected.length ≠ 0
          then (true, pos + expected.length) else (false, pos) := rfl

/-- C1: the code at the claim's own failing input.  On buffer "AXCD" with
expected "AB" the scalar fallback returns failure with the cursor advanced
by 1 (left at the mismatching byte, not restored), while the vectorized path
returns failure with the cursor unchanged; the claim demands a zero net
advance on failure in both paths. -/
theorem C1_scalar_mismatch_leaves_cursor_advanced :
    parse_expected_scalar [65, 66] [65, 88, 67, 68] 0 = (false, 1) ∧
    parse_expected_sse [65, 66] [65, 88, 67, 68] 0 = (false, 0) := by
  constructor
  · decide
  · decide

/-- C2 counterexample, two instances.  At n = 16 (token exactly fills the
comparison register) the equal-ordered aggregation truncates at the window
edge, so a 15-byte suffix match sets mask bit 1: on buffer 'B' followed by
15 'A's against expected 16 'A's the SSE path reports success and advances
16 although byte 0 differs.  At n = 17 both length operands saturate at 16,
so 16 matching bytes suffice for success although the 17th consumed byte
differs. -/
theorem C2_cex_sse_long_token :
    (parse_expected_sse (List.replicate 16 65) (66 :: List.replicate 15 65) 0
        = (true, 16) ∧
      ((66 :: List.replicate 15 65).drop 0).take 16 ≠ List.replicate 16 65) ∧
    (parse_expected_sse (List.replicate 16 65 ++ [66]) (List.replicate 16 65 ++ [67]) 0
        = (true, 17) ∧
      ((List.replicate 16 65 ++ [67]).drop 0).take 17 ≠ List.replicate 16 65 ++ [66]) := by
  refine ⟨⟨by decide, by decide⟩, by decide, by decide⟩

/-- C2 (amended): for `n ≤ available_size()`, success of `parse_expected`
implies the cursor advanced by exactly `n` and the consumed bytes equal
`expected` — unconditionally on the scalar path, and on the vectorized path
provided `n ≤ 15`, i.e. the token sits strictly inside the 16-byte
comparison register (at `n = 16` a partial suffix match already sets a mask
bit, and past 16 the length operands saturate). -/
theorem C2_parse_expected_success_consumes_expected (expected buf : List Nat)
    (pos : Nat) (hn : expected.length ≤ available_size buf pos) :
    (∀ res, parse_expected_scalar expected buf pos = (true, res) →
      res = pos + expected.length ∧ (buf.drop pos).take expected.length = expected) ∧
    (expected.length ≤ 15 →
      ∀ res, parse_expected_sse expected buf pos = (true, res) →
        res = pos + expected.length ∧ (buf.drop pos).take expected.length = expected) := by
  constructor
  · intro res h
    unfold parse_expected_scalar at h
    rw [if_neg (by omega)] at h
    exact matchLoop_true expected _ pos res h
  · intro h15 res h
    rw [parse_expected_sse_eq] at h
    rw [if_neg (by omega)] at h
    by_cases hm : cmpestrm_ordered_mask expected (fun i => byteAt buf (pos + i))
        expected.length expected.length ≠ 0
    · rw [if_pos hm] at h
      have hres : res = pos + expected.length := by
        have := congrArg Prod.snd h
        simpa using this.symm
      refine ⟨hres, ?_⟩
      rcases Nat.eq_zero_or_pos expected.length with hz | hp
      · have he : expected = [] := List.length_eq_zero.mp hz
        subst he
        simp
      · have hbytes := (parse_expected_sse_mask expected buf pos hp h15).mp hm
        apply List.ext_getElem
        · rw [List.length_take, List.length_drop]
          unfold available_size at hn
          omega
        · intro j hj1 hj2
          have hjlen : j < expected.length := hj2
          have hjb : pos + j < buf.length := by
            unfold available_size at hn
            omega
          have e1 : byteAt buf (pos + j) = buf[pos + j] := List.getD_eq_getElem buf 0 hjb
          have e2 : expected.getD j 0 = expected[j] := List.getD_eq_getElem expected 0 hjlen
          rw [List.getElem_take, List.getElem_drop, ← e1, ← e2]
          exact hbytes j hjlen
    · rw [if_neg hm] at h
      have := congrArg Prod.fst h
      simp at this

/-- C2 witness at the spec's example: buffer "ABCD", expected "AB" (n = 2). -/
theorem C2_witness :
    (2 : Nat) = 0 + ([65, 66] : List Nat).length ∧
      (([65, 66, 67, 68] : List Nat).drop 0).take ([65, 66] : List Nat).length
        = [65, 66] :=
  (C2_parse_expected_success_consumes_expected [65, 66] [65, 66, 67, 68] 0
    (by decide)).1 2 (by decide)

/-- C6: `parse_double` returns the NaN sentinel with the cursor unchanged
exactly when the injected strategy consumes zero bytes; otherwise it returns
the strategy's value and advances the cursor by the consumed count. -/
theorem C6_parse_double {α : Type} (strat : List Nat → Nat → α × Nat) (nan : α)
    (buf : List Nat) (pos : Nat) :
    ((parse_double strat nan buf pos = (nan, pos)) ↔
      (strat (buf.drop pos) (available_size buf pos)).2 = 0) ∧
    ((strat (buf.drop pos) (available_size buf pos)).2 ≠ 0 →
      parse_double strat nan buf pos =
        ((strat (buf.drop pos) (available_size buf pos)).1,
          pos + (strat (buf.drop pos) (available_size buf pos)).2)) := by
  have hd : parse_double strat nan buf pos =
      if (strat (buf.drop pos) (available_size buf pos)).2 = 0 then (nan, pos)
      else ((strat (buf.drop pos) (available_size buf pos)).1,
        pos + (strat (buf.drop pos) (available_size buf pos)).2) := rfl
  constructor
  · constructor
    · intro h
      by_contra hne
      rw [hd, if_neg hne] at h
      have h2 := congrArg Prod.snd h
      simp at h2
      omega
    · intro h
      rw [hd, if_pos h]
  · intro h
    rw [hd, if_neg h]

/-- C6 witness: a strategy consuming 2 bytes with value 7. -/
theorem C6_witness :
    parse_double (fun _ _ => ((7 : Nat), 2)) 0 [1, 2, 3] 0 = (7, 0 + 2) :=
  (C6_parse_double (fun _ _ => ((7 : Nat), 2)) 0 [1, 2, 3] 0).2 (by decide)

/-- C7: when `n` exceeds `available_size()`, `parse_expected` fails
immediately with the cursor unchanged, on both paths. -/
theorem C7_parse_expected_insufficient_input (expected buf : List Nat) (pos : Nat)
    (h : available_size buf pos < expected.length) :
    parse_expected_scalar expected buf pos = (false, pos) ∧
      parse_expected_sse expected buf pos = (false, pos) := by
  constructor
  · unfold parse_expected_scalar
    rw [if_pos (by omega)]
  · rw [parse_expected_sse_eq]
    rw [if_pos (by omega)]

/-- C7 witness: expected "AB" against the single-byte buffer "A". -/
theorem C7_witness :
    available_size [65] 0 < ([65, 66] : List Nat).length ∧
      (parse_expected_scalar [65, 66] [65] 0 = (false, 0) ∧
        parse_expected_sse [65, 66] [65] 0 = (false, 0)) :=
  ⟨by decide, C7_parse_expected_insufficient_input [65, 66] [65] 0 (by decide)⟩

/-- C8: `remaining_size()` equals `available_size() - 1` when the latter is
nonzero, else 0. -/
theorem C8_remaining_size (buf : List Nat) (pos : Nat) :
    (available_size buf pos ≠ 0 →
      remaining_size buf pos = available_size buf pos - 1) ∧
    (available_size buf pos = 0 → remaining_size buf pos = 0) := by
  constructor
  · intro h
    show (if available_size buf pos ≠ 0 then available_size buf pos - 1 else 0)
      = available_size buf pos - 1
    rw [if_pos h]
  · intro h
    show (if available_size buf pos ≠ 0 then available_size buf pos - 1 else 0) = 0
    rw [if_neg (by omega)]

/-- C8 witness: a two-byte buffer at offsets 0 and 2. -/
theorem C8_witness :
    remaining_size [7, 8] 0 = 1 ∧ remaining_size [7, 8] 2 = 0 :=
  ⟨Eq.trans ((C8_remaining_size [7, 8] 0).1 (by decide)) (by decide),
    (C8_remaining_size [7, 8] 2).2 (by decide)⟩

/-- An all-invalid needle (zero-length expected token) forces every ordered
bit to 1, so the `pcmpestrm` mask is nonzero at every window position. -/
theorem ordered_bit_empty (b : Nat → Nat) (lb i : Nat) :
    ordered_bit [] b (List.length ([] : List Nat)) lb i = true := by
  unfold ordered_bit
  rw [decide_eq_true_eq]
  intro j hj
  simp at hj

/-- C10: a zero-length expected token always succeeds with the cursor
unchanged, on both paths, for every buffer state (including empty or fully
consumed buffers). -/
theorem C10_parse_expected_empty (buf : List Nat) (pos : Nat) :
    parse_expected_scalar [] buf pos = (true, pos) ∧
      parse_expected_sse [] buf pos = (true, pos) := by
  constructor
  · unfold parse_expected_scalar
    rw [if_neg (by simp)]
    rfl
  · rw [parse_expected_sse_eq]
    rw [if_neg (by simp)]
    rw [if_pos ((cmpestrm_mask_ne_zero_iff _ _ _ _).mpr
      ⟨0, by omega, ordered_bit_empty _ _ 0⟩)]
    simp

end Orcus

namespace Orcus

/-- C3 counterexample: with a skip-set of 17 distinct bytes, the needle
length operand of `pcmpestri` saturates at 16, so the vectorized path stops
at the 17th set member while the scalar fallback skips it: the two paths end
at different cursor positions. -/
theorem C3_cex_skip_17_byte_set :
    skip_sse (List.range 17) [16] 0 = 0 ∧ skip_scalar (List.range 17) [16] 0 = 1 := by
  constructor
  · decide
  · decide

/-- C3 (amended): for every byte buffer and cursor position, the vectorized
and scalar paths of `skip` agree whenever the skip-set holds at most 16
bytes (one comparison register), and all three paths of
`skip_space_and_control` agree, including on buffers with high-bit-set bytes
interleaved with ASCII control characters. -/
theorem C3_paths_agree (set buf : List Nat) (pos : Nat) (hset : set.length ≤ 16)
    (hbuf : ∀ b ∈ buf, b < 256) :
    skip_sse set buf pos = skip_scalar set buf pos ∧
    skip_ws_avx buf pos = skip_ws_scalar buf pos ∧
    skip_ws_sse buf pos = skip_ws_scalar buf pos :=
  ⟨skip_sse_eq_scalar set buf pos hset, skip_ws_avx_eq_scalar buf pos hbuf,
    skip_ws_sse_eq_scalar buf pos⟩

/-- C3 witness: a buffer with a high-bit byte (0x80) interleaved with control
characters. -/
theorem C3_witness :
    skip_sse [32, 9] [9, 0, 128, 65] 0 = skip_scalar [32, 9] [9, 0, 128, 65] 0 ∧
    skip_ws_avx [9, 0, 128, 65] 0 = skip_ws_scalar [9, 0, 128, 65] 0 ∧
    skip_ws_sse [9, 0, 128, 65] 0 = skip_ws_scalar [9, 0, 128, 65] 0 :=
  C3_paths_agree [32, 9] [9, 0, 128, 65] 0 (by decide) (by decide)

/-- C4: none of the three `skip_space_and_control` paths ever moves the
cursor past a byte whose value is at least 0x80: if the byte at `q ≥ pos` is
high, every path ends at or before `q`. -/
theorem C4_ws_never_skips_high_byte (buf : List Nat) (pos q : Nat)
    (hbuf : ∀ b ∈ buf, b < 256) (hq : pos ≤ q) (hhigh : 128 ≤ byteAt buf q) :
    skip_ws_scalar buf pos ≤ q ∧ skip_ws_avx buf pos ≤ q ∧
      skip_ws_sse buf pos ≤ q := by
  have hs : skip_ws_scalar buf pos ≤ q := by
    by_contra hc
    push_neg at hc
    have hcons := scanPos_consumed (fun c => decide (c ≤ 32)) buf pos q hq hc
    have h2 : decide (byteAt buf q ≤ 32) = true := hcons.2
    have hb := of_decide_eq_true h2
    omega
  refine ⟨hs, ?_, ?_⟩
  · rw [skip_ws_avx_eq_scalar buf pos hbuf]
    exact hs
  · rw [skip_ws_sse_eq_scalar buf pos]
    exact hs

/-- C4 witness: a control byte followed by 0x80; every path stops at index 1. -/
theorem C4_witness :
    skip_ws_scalar [9, 128, 9] 0 ≤ 1 ∧ skip_ws_avx [9, 128, 9] 0 ≤ 1 ∧
      skip_ws_sse [9, 128, 9] 0 ≤ 1 :=
  C4_ws_never_skips_high_byte [9, 128, 9] 0 1 (by decide) (by decide) (by decide)

/-- C5 counterexample: with a 17-byte skip-set the SSE-compiled `skip` stops
at position 0 even though that byte is a member of the set and the first
non-member is at position 1 — it does not leave the cursor at the first
non-member position. -/
theorem C5_cex_sse_17_byte_set :
    skip_sse (List.range 17) [16, 99] 0 = 0 ∧
      is_in (byteAt [16, 99] 0) (List.range 17) = true ∧
      is_in (byteAt [16, 99] 1) (List.range 17) = false := by
  refine ⟨by decide, by decide, by decide⟩

/-- C5 (amended): `skip` leaves the cursor at the first position at or after
the start whose byte is not in the set (or at the end of the buffer), and a
second call is a no-op — for the scalar fallback with every skip-set, and
for the vectorized path whenever the skip-set holds at most 16 bytes, where
it coincides with the scalar path. -/
theorem C5_skip_first_non_member_idempotent (set buf : List Nat) (pos : Nat)
    (hpos : pos ≤ buf.length) :
    (pos ≤ skip_scalar set buf pos ∧ skip_scalar set buf pos ≤ buf.length ∧
      (∀ q, pos ≤ q → q < skip_scalar set buf pos →
        is_in (byteAt buf q) set = true) ∧
      (skip_scalar set buf pos < buf.length →
        is_in (byteAt buf (skip_scalar set buf pos)) set = false)) ∧
    skip_scalar set buf (skip_scalar set buf pos) = skip_scalar set buf pos ∧
    (set.length ≤ 16 →
      skip_sse set buf pos = skip_scalar set buf pos ∧
      skip_sse set buf (skip_sse set buf pos) = skip_sse set buf pos) := by
  refine ⟨⟨scanPos_ge _ buf pos, scanPos_le_length _ buf pos hpos, ?_, ?_⟩,
    ?_, ?_⟩
  · intro q h1 h2
    exact (scanPos_consumed _ buf pos q h1 h2).2
  · intro h
    exact scanPos_at_result _ buf pos h
  · exact scanPos_idem _ buf pos
  · intro hset
    refine ⟨skip_sse_eq_scalar set buf pos hset, ?_⟩
    rw [skip_sse_eq_scalar set buf pos hset,
      skip_sse_eq_scalar set buf (skip_scalar set buf pos) hset]
    exact scanPos_idem _ buf pos

/-- C5 witness: two skippable spaces then a letter. -/
theorem C5_witness :
    skip_scalar [32] [32, 32, 65] (skip_scalar [32] [32, 32, 65] 0)
        = skip_scalar [32] [32, 32, 65] 0 ∧
      skip_sse [32] [32, 32, 65] 0 = skip_scalar [32] [32, 32, 65] 0 :=
  ⟨(C5_skip_first_non_member_idempotent [32] [32, 32, 65] 0 (by decide)).2.1,
    ((C5_skip_first_non_member_idempotent [32] [32, 32, 65] 0 (by decide)).2.2
      (by decide)).1⟩

/-- C9: construction places the cursor at the start with offset 0, and every
skip / match / numeric operation keeps the cursor within `[start, end]`: each
result position lies between the pre-call position and the buffer length
(the numeric strategy honouring its consumes-at-most-the-given-length
contract). -/
theorem C9_cursor_invariant {α : Type} (set expected buf : List Nat) (pos : Nat)
    (strat : List Nat → Nat → α × Nat) (nan : α)
    (hpos : pos ≤ buf.length)
    (hstrat : ∀ s n, (strat s n).2 ≤ n) :
    parser_base_init = 0 ∧ offset parser_base_init = 0 ∧
    (pos ≤ skip_scalar set buf pos ∧ skip_scalar set buf pos ≤ buf.length) ∧
    (pos ≤ skip_sse set buf pos ∧ skip_sse set buf pos ≤ buf.length) ∧
    (pos ≤ skip_ws_scalar buf pos ∧ skip_ws_scalar buf pos ≤ buf.length) ∧
    (pos ≤ skip_ws_avx buf pos ∧ skip_ws_avx buf pos ≤ buf.length) ∧
    (pos ≤ skip_ws_sse buf pos ∧ skip_ws_sse buf pos ≤ buf.length) ∧
    (pos ≤ (parse_expected_scalar expected buf pos).2 ∧
      (parse_expected_scalar expected buf pos).2 ≤ buf.length) ∧
    (pos ≤ (parse_expected_sse expected buf pos).2 ∧
      (parse_expected_sse expected buf pos).2 ≤ buf.length) ∧
    (pos ≤ (parse_double strat nan buf pos).2 ∧
      (parse_double strat nan buf pos).2 ≤ buf.length) := by
  refine ⟨rfl, rfl, ⟨scanPos_ge _ buf pos, scanPos_le_length _ buf pos hpos⟩,
    sseSkipLoop_bounds set buf _ pos _ hpos (Nat.le_refl _),
    ⟨scanPos_ge _ buf pos, scanPos_le_length _ buf pos hpos⟩,
    avxWsLoop_bounds buf _ pos _ hpos (Nat.le_refl _),
    sseWsLoop_bounds buf _ pos _ hpos (Nat.le_refl _),
    ?_, ?_, ?_⟩
  · unfold parse_expected_scalar
    by_cases hg : expected.length > available_size buf pos
    · rw [if_pos hg]
      exact ⟨Nat.le_refl _, hpos⟩
    · rw [if_neg hg]
      obtain ⟨b1, b2⟩ := matchLoop_bounds expected (buf.drop pos) pos
      have hlen : (buf.drop pos).length = buf.length - pos := List.length_drop _ _
      exact ⟨b1, by omega⟩
  · rw [parse_expected_sse_eq]
    by_cases hg : expected.length > available_size buf pos
    · rw [if_pos hg]
      exact ⟨Nat.le_refl _, hpos⟩
    · rw [if_neg hg]
      by_cases hm : cmpestrm_ordered_mask expected (fun i => byteAt buf (pos + i))
          expected.length expected.length ≠ 0
      · rw [if_pos hm]
        show pos ≤ pos + expected.length ∧ pos + expected.length ≤ buf.length
        unfold available_size at hg
        omega
      · rw [if_neg hm]
        exact ⟨Nat.le_refl _, hpos⟩
  · have hd : parse_double strat nan buf pos =
        if (strat (buf.drop pos) (available_size buf pos)).2 = 0 then (nan, pos)
        else ((strat (buf.drop pos) (available_size buf pos)).1,
          pos + (strat (buf.drop pos) (available_size buf pos)).2) := rfl
    rw [hd]
    by_cases hc : (strat (buf.drop pos) (available_size buf pos)).2 = 0
    · rw [if_pos hc]
      exact ⟨Nat.le_refl _, hpos⟩
    · rw [if_neg hc]
      have hb := hstrat (buf.drop pos) (available_size buf pos)
      show pos ≤ pos + (strat (buf.drop pos) (available_size buf pos)).2 ∧
        pos + (strat (buf.drop pos) (available_size buf pos)).2 ≤ buf.length
      unfold available_size at hb hc ⊢
      omega

/-- C9 witness: all operations on the buffer " A" from position 0, with a
strategy consuming nothing. -/
theorem C9_witness :
    (0 : Nat) ≤ skip_ws_scalar [32, 65] 0 ∧ skip_ws_scalar [32, 65] 0 ≤ 2 :=
  (C9_cursor_invariant [32] [65] [32, 65] 0 (fun _ _ => ((0 : Nat), 0)) 0
    (by decide) (fun s n => Nat.zero_le n)).2.2.2.2.1

end Orcus
